import Mathlib

/-!
Verification of the GhostMessaging core: the stego envelope (src/stego.rs),
the Ticket codec (src/main.rs, Display/FromStr for Ticket), and the session
event loop (src/main.rs, run_tui).  Rust strings are modelled as `List Char`,
bytes as `Fin 256`, fallible operations as `Option`.
-/

namespace Ghost

/-- Bytes as handled by the codecs: machine bytes 0..255. -/
abbrev Byte := Fin 256

def byte0 : Byte := ⟨0, by omega⟩

def byte1 : Byte := ⟨1, by omega⟩

/-- Index of the first occurrence of character c, as Rust str::find with a char pattern. -/
def findCharIdx (c : Char) : List Char → Option Nat
  | [] => none
  | x :: xs => if x = c then some 0 else (findCharIdx c xs).map (· + 1)

/-- Whether the second list starts with the first, as Rust str::starts_with. -/
def listStartsWith : List Char → List Char → Bool
  | [], _ => true
  | _ :: _, [] => false
  | p :: ps, x :: xs => p == x && listStartsWith ps xs

/-- Index of the first occurrence of the pattern, as Rust str::find with a str pattern. -/
def findSubIdx (pat : List Char) (text : List Char) : Option Nat :=
  match text with
  | [] => if listStartsWith pat [] then some 0 else none
  | _ :: xs => if listStartsWith pat text then some 0 else (findSubIdx pat xs).map (· + 1)

/-- The code points with the Unicode White_Space property, as recognised by
Rust char::is_whitespace (used by str::trim). -/
def wsChars : List Char :=
  [Char.ofNat 0x9, Char.ofNat 0xA, Char.ofNat 0xB, Char.ofNat 0xC, Char.ofNat 0xD,
   Char.ofNat 0x20, Char.ofNat 0x85, Char.ofNat 0xA0, Char.ofNat 0x1680,
   Char.ofNat 0x2000, Char.ofNat 0x2001, Char.ofNat 0x2002, Char.ofNat 0x2003,
   Char.ofNat 0x2004, Char.ofNat 0x2005, Char.ofNat 0x2006, Char.ofNat 0x2007,
   Char.ofNat 0x2008, Char.ofNat 0x2009, Char.ofNat 0x200A, Char.ofNat 0x2028,
   Char.ofNat 0x2029, Char.ofNat 0x202F, Char.ofNat 0x205F, Char.ofNat 0x3000]

/-- Rust char::is_whitespace. -/
def rustIsWs (c : Char) : Bool := wsChars.contains c

/-- Rust str::trim: strip whitespace from both ends. -/
def rustTrim (l : List Char) : List Char :=
  ((l.dropWhile rustIsWs).reverse.dropWhile rustIsWs).reverse

/-- The literal envelope opener written by stego::hide and searched by stego::reveal. -/
def ghostTag : List Char := ['[', 'G', 'h', 'o', 's', 't', ':']

/-- Models stego::hide: format!("[Ghost:\x7b\x7d]", secret); the cover text is ignored. -/
def hide (_cover secret : List Char) : List Char := ghostTag ++ secret ++ [']']

/-- Checked slice text[a..b]: a Rust out-of-range slice panic surfaces as none. -/
def sliceChk (l : List Char) (a b : Nat) : Option (List Char) :=
  if a ≤ b ∧ b ≤ l.length then some ((l.drop a).take (b - a)) else none

/-- Models stego::reveal.  The source always returns Ok; the only way it could
fail is a panicking slice, which this model makes explicit as none. -/
def reveal (text : List Char) : Option (List Char) :=
  match findSubIdx ghostTag text with
  | some s =>
    match findCharIdx ']' (text.drop s) with
    | some e =>
      match sliceChk text (s + 7) (s + e) with
      | some secret => some secret
      | none => none
    | none => some (rustTrim text)
  | none => some (rustTrim text)

/-- The standard base64 alphabet, as base64::engine::general_purpose::STANDARD_NO_PAD. -/
def b64chars : List Char :=
  ['A', 'B', 'C', 'D', 'E', 'F', 'G', 'H', 'I', 'J', 'K', 'L', 'M',
   'N', 'O', 'P', 'Q', 'R', 'S', 'T', 'U', 'V', 'W', 'X', 'Y', 'Z',
   'a', 'b', 'c', 'd', 'e', 'f', 'g', 'h', 'i', 'j', 'k', 'l', 'm',
   'n', 'o', 'p', 'q', 'r', 's', 't', 'u', 'v', 'w', 'x', 'y', 'z',
   '0', '1', '2', '3', '4', '5', '6', '7', '8', '9', '+', '/']

/-- Alphabet character of a six-bit value. -/
def b64tbl (v : Fin 64) : Char := b64chars.getD v.val 'A'

/-- Six-bit value of an alphabet character, none for a character outside the alphabet. -/
def b64idx (c : Char) : Option (Fin 64) :=
  match findCharIdx c b64chars with
  | some i => if h : i < 64 then some ⟨i, h⟩ else none
  | none => none

def sextet1 (b1 : Byte) : Fin 64 := ⟨b1.val / 4, by have h := b1.isLt; omega⟩

def sextet2 (b1 b2 : Byte) : Fin 64 :=
  ⟨b1.val % 4 * 16 + b2.val / 16, by have h := b2.isLt; omega⟩

def sextet3 (b2 b3 : Byte) : Fin 64 :=
  ⟨b2.val % 16 * 4 + b3.val / 64, by have h := b3.isLt; omega⟩

def sextet4 (b3 : Byte) : Fin 64 := ⟨b3.val % 64, by omega⟩

def dbyte1 (v1 v2 : Fin 64) : Byte :=
  ⟨v1.val * 4 + v2.val / 16, by have h1 := v1.isLt; have h2 := v2.isLt; omega⟩

def dbyte2 (v2 v3 : Fin 64) : Byte :=
  ⟨v2.val % 16 * 16 + v3.val / 4, by have h := v3.isLt; omega⟩

def dbyte3 (v3 v4 : Fin 64) : Byte :=
  ⟨v3.val % 4 * 64 + v4.val, by have h := v4.isLt; omega⟩

/-- Unpadded standard base64 encoding of a byte sequence. -/
def b64encode : List Byte → List Char
  | [] => []
  | [b1] => [b64tbl (sextet1 b1), b64tbl ⟨b1.val % 4 * 16, by omega⟩]
  | [b1, b2] => [b64tbl (sextet1 b1), b64tbl (sextet2 b1 b2), b64tbl ⟨b2.val % 16 * 4, by omega⟩]
  | b1 :: b2 :: b3 :: rest =>
      b64tbl (sextet1 b1) :: b64tbl (sextet2 b1 b2) :: b64tbl (sextet3 b2 b3) ::
        b64tbl (sextet4 b3) :: b64encode rest

/-- Unpadded standard base64 decoding; rejects characters outside the alphabet,
a trailing chunk of length one, and nonzero trailing bits (the defaults of the
base64 crate general-purpose engine). -/
def b64decode : List Char → Option (List Byte)
  | [] => some []
  | [_] => none
  | [c1, c2] => do
      let v1 ← b64idx c1
      let v2 ← b64idx c2
      if v2.val % 16 = 0 then some [dbyte1 v1 v2] else none
  | [c1, c2, c3] => do
      let v1 ← b64idx c1
      let v2 ← b64idx c2
      let v3 ← b64idx c3
      if v3.val % 4 = 0 then some [dbyte1 v1 v2, dbyte2 v2 v3] else none
  | c1 :: c2 :: c3 :: c4 :: rest => do
      let v1 ← b64idx c1
      let v2 ← b64idx c2
      let v3 ← b64idx c3
      let v4 ← b64idx c4
      let tail ← b64decode rest
      some (dbyte1 v1 v2 :: dbyte2 v2 v3 :: dbyte3 v3 v4 :: tail)

/-- Fixed-length byte array of 32 bytes (a gossip topic id or a node public key). -/
abbrev Bytes32 := { l : List Byte // l.length = 32 }

/-- Stable peer identity: a 32-byte public key, opaque to this program. -/
abbrev NodeId := Bytes32

/-- Modelled from the spec: a network endpoint of a rendezvous address, an
IPv4 or IPv6 address together with a port (the spec's "network endpoints,
including loopback endpoints"). -/
inductive SockAddr where
  | v4 (ip : { l : List Byte // l.length = 4 }) (port : Fin 65536)
  | v6 (ip : { l : List Byte // l.length = 16 }) (port : Fin 65536)
  deriving DecidableEq

/-- Modelled from the spec: a rendezvous address — "a stable peer identity
plus zero or more network endpoints" (iroh NodeAddr, whose definition is not
part of this repository). -/
structure NodeAddr where
  node_id : NodeId
  endpoints : List SockAddr
  deriving DecidableEq

/-- The Ticket of src/main.rs: a fixed-size topic and an ordered node list. -/
structure Ticket where
  topic : Bytes32
  nodes : List NodeAddr
  deriving DecidableEq

/-- Little-endian u64, as the bincode length prefix of a sequence. -/
def serU64LE (n : Nat) : List Byte :=
  [⟨n % 256, by omega⟩, ⟨n / 256 % 256, by omega⟩, ⟨n / 65536 % 256, by omega⟩,
   ⟨n / 16777216 % 256, by omega⟩, ⟨n / 4294967296 % 256, by omega⟩,
   ⟨n / 1099511627776 % 256, by omega⟩, ⟨n / 281474976710656 % 256, by omega⟩,
   ⟨n / 72057594037927936 % 256, by omega⟩]

def parseU64LE : List Byte → Option (Nat × List Byte)
  | d0 :: d1 :: d2 :: d3 :: d4 :: d5 :: d6 :: d7 :: rest =>
      some (d0.val + 256 * d1.val + 65536 * d2.val + 16777216 * d3.val +
            4294967296 * d4.val + 1099511627776 * d5.val +
            281474976710656 * d6.val + 72057594037927936 * d7.val, rest)
  | _ => none

/-- Little-endian u16, as bincode serialises a port number. -/
def serU16LE (p : Fin 65536) : List Byte :=
  [⟨p.val % 256, by omega⟩, ⟨p.val / 256, by have h := p.isLt; omega⟩]

def parseU16LE : List Byte → Option (Fin 65536 × List Byte)
  | d0 :: d1 :: rest =>
      some (⟨d0.val + 256 * d1.val, by have h0 := d0.isLt; have h1 := d1.isLt; omega⟩, rest)
  | _ => none

/-- Reads exactly k bytes. -/
def readFixed (k : Nat) (bs : List Byte) : Option ({ l : List Byte // l.length = k } × List Byte) :=
  if h : k ≤ bs.length then
    some (⟨bs.take k, by rw [List.length_take]; omega⟩, bs.drop k)
  else none

/-- Modelled from the spec: the deterministic binary serialisation of one
network endpoint (bincode: a little-endian u32 variant tag, the address
octets, then the port). -/
def serSockAddr : SockAddr → List Byte
  | .v4 ip port => byte0 :: byte0 :: byte0 :: byte0 :: (ip.val ++ serU16LE port)
  | .v6 ip port => byte1 :: byte0 :: byte0 :: byte0 :: (ip.val ++ serU16LE port)

def parseSockAddr (bs : List Byte) : Option (SockAddr × List Byte) :=
  match bs with
  | t0 :: t1 :: t2 :: t3 :: rest =>
    if t0 = byte0 ∧ t1 = byte0 ∧ t2 = byte0 ∧ t3 = byte0 then do
      let (ip, rest1) ← readFixed 4 rest
      let (port, rest2) ← parseU16LE rest1
      some (.v4 ip port, rest2)
    else if t0 = byte1 ∧ t1 = byte0 ∧ t2 = byte0 ∧ t3 = byte0 then do
      let (ip, rest1) ← readFixed 16 rest
      let (port, rest2) ← parseU16LE rest1
      some (.v6 ip port, rest2)
    else none
  | _ => none

/-- Reads n consecutive values with the given element reader. -/
def parseCount (p : List Byte → Option (α × List Byte)) : Nat → List Byte → Option (List α × List Byte)
  | 0, bs => some ([], bs)
  | n + 1, bs => do
      let (a, bs1) ← p bs
      let (as, bs2) ← parseCount p n bs1
      some (a :: as, bs2)

/-- Modelled from the spec: bincode serialisation of a rendezvous address —
the 32-byte identity, then the u64-length-prefixed endpoint list. -/
def serNodeAddr (na : NodeAddr) : List Byte :=
  na.node_id.val ++ serU64LE na.endpoints.length ++ (na.endpoints.map serSockAddr).flatten

def parseNodeAddr (bs : List Byte) : Option (NodeAddr × List Byte) := do
  let (nid, bs1) ← readFixed 32 bs
  let (n, bs2) ← parseU64LE bs1
  let (eps, bs3) ← parseCount parseSockAddr n bs2
  some (⟨nid, eps⟩, bs3)

/-- Modelled from the spec: bincode serialisation of a Ticket, "deterministic
field order: topic, then nodes in given order" — the 32 topic bytes, then the
u64-length-prefixed node list. -/
def serTicket (t : Ticket) : List Byte :=
  t.topic.val ++ serU64LE t.nodes.length ++ (t.nodes.map serNodeAddr).flatten

def parseTicket (bs : List Byte) : Option (Ticket × List Byte) := do
  let (topic, bs1) ← readFixed 32 bs
  let (n, bs2) ← parseU64LE bs1
  let (nodes, bs3) ← parseCount parseNodeAddr n bs2
  some (⟨topic, nodes⟩, bs3)

/-- Models the Display impl of Ticket: bincode-serialise, then unpadded
standard base64. -/
def ticketDisplay (t : Ticket) : List Char := b64encode (serTicket t)

/-- Models the FromStr impl of Ticket: trim, base64-decode, bincode-deserialise;
any failure yields none (the Err case of from_str). -/
def ticketFromStr (s : List Char) : Option Ticket := do
  let bin ← b64decode (rustTrim s)
  let (t, _) ← parseTicket bin
  some t

/-- The wire Message enum of src/main.rs. -/
inductive Message where
  | aboutMe (name : List Char)
  | chat (text : List Char)
  deriving DecidableEq

/-- One transcript entry (struct ChatMessage of src/main.rs). -/
structure ChatMessage where
  sender : List Char
  text : List Char
  time : List Char
  is_me : Bool
  deriving DecidableEq

/-- The session state (struct AppState of src/main.rs); the HashMap
peer_names is modelled as an association list with unique keys. -/
structure AppState where
  messages : List ChatMessage
  input : List Char
  peer_names : List (NodeId × List Char)
  my_name : List Char
  deriving DecidableEq

/-- HashMap::insert on the association list: replace the entry of an existing
key in place, otherwise append. -/
def insertPN (k : NodeId) (v : List Char) : List (NodeId × List Char) → List (NodeId × List Char)
  | [] => [(k, v)]
  | (k1, v1) :: rest => if k1 = k then (k, v) :: rest else (k1, v1) :: insertPN k v rest

/-- HashMap::get on the association list. -/
def lookupPN (k : NodeId) : List (NodeId × List Char) → Option (List Char)
  | [] => none
  | (k1, v) :: rest => if k1 = k then some v else lookupPN k rest

/-- Number of entries stored under a key. -/
def countKey (k : NodeId) : List (NodeId × List Char) → Nat
  | [] => 0
  | (k1, _) :: rest => (if k1 = k then 1 else 0) + countKey k rest

/-- The placeholder display name for a Chat sender with no Presence yet. -/
def unknownName : List Char := ['U', 'n', 'k', 'n', 'o', 'w', 'n']

/-- The network-event branch of the run_tui loop: a delivery from from_id whose
payload deserialised to the given Message, or to none when malformed (the
failed serde_json::from_slice case, silently discarded). -/
def processInbound (st : AppState) (from_id : NodeId) (payload : Option Message)
    (now : List Char) : AppState :=
  match payload with
  | none => st
  | some (.aboutMe name) => { st with peer_names := insertPN from_id name st.peer_names }
  | some (.chat text) =>
      { st with messages :=
          st.messages ++ [⟨(lookupPN from_id st.peer_names).getD unknownName, text, now, false⟩] }

/-- Key codes as discriminated by the run_tui input branch. -/
inductive KeyCode where
  | enter
  | char (c : Char)
  | backspace
  | esc
  | other
  deriving DecidableEq

/-- One event consumed by an iteration of the run_tui loop: an inbound network
delivery (payload none when it fails to deserialise), another network stream
item carrying no gossip message, a key press, or a poll tick with no key. -/
inductive LoopEvent where
  | net (from_id : NodeId) (payload : Option Message)
  | netNoise
  | key (code : KeyCode)
  | tick
  deriving DecidableEq

/-- The two logical states of the session loop. -/
inductive Status where
  | running
  | terminated
  deriving DecidableEq

/-- One iteration of the run_tui event loop: the next state, whether the loop
keeps running, and the list of messages broadcast during the iteration. -/
def step (st : AppState) (ev : LoopEvent) (now : List Char) :
    AppState × Status × List Message :=
  match ev with
  | .net from_id payload => (processInbound st from_id payload now, .running, [])
  | .netNoise => (st, .running, [])
  | .tick => (st, .running, [])
  | .key code =>
    match code with
    | .enter =>
        if st.input = [] then (st, .running, [])
        else
          ({ st with input := [],
                     messages := st.messages ++ [⟨st.my_name, st.input, now, true⟩] },
           .running, [Message.chat st.input])
    | .char c => ({ st with input := st.input ++ [c] }, .running, [])
    | .backspace => ({ st with input := st.input.dropLast }, .running, [])
    | .esc => (st, .terminated, [])
    | .other => (st, .running, [])

/-- Runs the loop over a list of timestamped events, stopping when it leaves
the running state. -/
def runLoop (st : AppState) : List (LoopEvent × List Char) → AppState × Status
  | [] => (st, .running)
  | (ev, now) :: rest =>
    match (step st ev now).2.1 with
    | .terminated => ((step st ev now).1, .terminated)
    | .running => runLoop (step st ev now).1 rest

/-- Applies a sequence of Presence deliveries (peer, name) to the peer map. -/
def applyPresences (m : List (NodeId × List Char)) : List (NodeId × List Char) → List (NodeId × List Char)
  | [] => m
  | (p, n) :: rest => applyPresences (insertPN p n m) rest

/-- The name in the last Presence of the sequence sent by q, if any. -/
def lastFrom (q : NodeId) : List (NodeId × List Char) → Option (List Char)
  | [] => none
  | (p, n) :: rest =>
    match lastFrom q rest with
    | some r => some r
    | none => if p = q then some n else none

/-- A complete envelope span starting at position i: the text carries the
literal opener there and a closing bracket somewhere after it. -/
def spanAt (text : List Char) (i : Nat) : Prop :=
  listStartsWith ghostTag (text.drop i) = true ∧ ']' ∈ text.drop (i + 7)

/-- The input contains no complete envelope span: no prefix at all, or a
prefix never followed by a closing bracket. -/
def noSpan (text : List Char) : Prop := ∀ i < text.length, ¬ spanAt text i

instance (text : List Char) (i : Nat) : Decidable (spanAt text i) := by
  unfold spanAt; infer_instance

instance (text : List Char) : Decidable (noSpan text) := by
  unfold noSpan; infer_instance

/-! Concrete sample values used to exercise the theorems. -/

def wTopic : Bytes32 := ⟨List.replicate 32 byte0, by decide⟩

def wNid : NodeId := ⟨List.replicate 32 byte1, by decide⟩

def wIp4 : { l : List Byte // l.length = 4 } :=
  ⟨[⟨127, by omega⟩, byte0, byte0, byte1], by decide⟩

def wPort : Fin 65536 := ⟨8080, by decide⟩

def wSock : SockAddr := .v4 wIp4 wPort

def wNode : NodeAddr := ⟨wNid, [wSock]⟩

def wTicket : Ticket := ⟨wTopic, [wNode]⟩

def wName : List Char := ['A', 'l', 'i', 'c', 'e']

def wNow : List Char := ['1', '2', ':', '0', '0']

def wMyName : List Char := ['M', 'e']

def wState : AppState := ⟨[], [], [], wMyName⟩

def wStateTyping : AppState := ⟨[], ['h', 'i'], [], wMyName⟩

def wEvents : List (LoopEvent × List Char) :=
  [(.net wNid (some (.aboutMe wName)), wNow),
   (.net wNid none, wNow),
   (.netNoise, wNow),
   (.key (.char 'x'), wNow),
   (.key .enter, wNow),
   (.tick, wNow)]

def wNoBracket : List Char := ['[', 'G', 'h', 'o', 's', 't', ':', 'a', 'b', 'c']

/-! Base64 lemmas. -/

theorem b64idx_tbl : ∀ v : Fin 64, b64idx (b64tbl v) = some v := by decide

theorem b64tbl_mem : ∀ v : Fin 64, b64tbl v ∈ b64chars := by decide

theorem b64chars_not_ws : ∀ c ∈ b64chars, rustIsWs c = false := by decide

/-- Every character emitted by the base64 encoder is an alphabet character. -/
theorem mem_b64encode : ∀ bs : List Byte, ∀ c ∈ b64encode bs, c ∈ b64chars
  | [] => by intro c hc; simp [b64encode] at hc
  | [b1] => by
      intro c hc
      simp only [b64encode, List.mem_cons, List.mem_singleton] at hc
      rcases hc with h | h | h <;> first | (subst h; exact b64tbl_mem _) | cases h
  | [b1, b2] => by
      intro c hc
      simp only [b64encode, List.mem_cons, List.mem_singleton] at hc
      rcases hc with h | h | h | h <;> first | (subst h; exact b64tbl_mem _) | cases h
  | b1 :: b2 :: b3 :: rest => by
      intro c hc
      simp only [b64encode, List.mem_cons] at hc
      rcases hc with h | h | h | h | h
      · subst h; exact b64tbl_mem _
      · subst h; exact b64tbl_mem _
      · subst h; exact b64tbl_mem _
      · subst h; exact b64tbl_mem _
      · exact mem_b64encode rest c h

/-- Base64 round trip: decoding an encoding yields the original bytes. -/
theorem b64decode_encode : ∀ bs : List Byte, b64decode (b64encode bs) = some bs
  | [] => rfl
  | [b1] => by
      have h1 := b1.isLt
      simp [b64encode, b64decode, b64idx_tbl, Nat.mul_mod_left, dbyte1, sextet1, Fin.ext_iff]
      omega
  | [b1, b2] => by
      have h1 := b1.isLt
      have h2 := b2.isLt
      simp [b64encode, b64decode, b64idx_tbl, Nat.mul_mod_left, dbyte1, dbyte2,
            sextet1, sextet2, Fin.ext_iff]
      omega
  | b1 :: b2 :: b3 :: rest => by
      have h1 := b1.isLt
      have h2 := b2.isLt
      have h3 := b3.isLt
      have ih := b64decode_encode rest
      simp [b64encode, b64decode, b64idx_tbl, ih, dbyte1, dbyte2, dbyte3,
            sextet1, sextet2, sextet3, sextet4, Fin.ext_iff]
      omega

/-! Trim lemmas. -/

theorem dropWhile_of_all_neg {p : Char → Bool} :
    ∀ l : List Char, (∀ c ∈ l, p c = false) → l.dropWhile p = l
  | [], _ => rfl
  | x :: xs, h => by
      simp [List.dropWhile_cons, h x (List.mem_cons_self x xs)]

/-- Trimming a string with no whitespace anywhere leaves it unchanged. -/
theorem rustTrim_of_no_ws (l : List Char) (h : ∀ c ∈ l, rustIsWs c = false) :
    rustTrim l = l := by
  unfold rustTrim
  rw [dropWhile_of_all_neg l h]
  rw [dropWhile_of_all_neg l.reverse (fun c hc => h c (List.mem_reverse.mp hc))]
  exact List.reverse_reverse l

/-! Serialisation round-trip lemmas. -/

theorem parseU64LE_ser (n : Nat) (h : n < 18446744073709551616) (rest : List Byte) :
    parseU64LE (serU64LE n ++ rest) = some (n, rest) := by
  simp [serU64LE, parseU64LE]
  omega

theorem parseU16LE_ser (p : Fin 65536) (rest : List Byte) :
    parseU16LE (serU16LE p ++ rest) = some (p, rest) := by
  have hp := p.isLt
  simp [serU16LE, parseU16LE, Fin.ext_iff]
  omega

theorem readFixed_append (k : Nat) (v : { l : List Byte // l.length = k }) (rest : List Byte) :
    readFixed k (v.val ++ rest) = some (v, rest) := by
  obtain ⟨l, hl⟩ := v
  subst hl
  simp [readFixed, List.take_left, List.drop_left]

theorem parseSockAddr_ser (a : SockAddr) (rest : List Byte) :
    parseSockAddr (serSockAddr a ++ rest) = some (a, rest) := by
  cases a with
  | v4 ip port =>
      simp [serSockAddr, parseSockAddr, byte0, byte1, List.append_assoc,
            readFixed_append, parseU16LE_ser]
  | v6 ip port =>
      simp [serSockAddr, parseSockAddr, byte0, byte1, Fin.ext_iff, List.append_assoc,
            readFixed_append, parseU16LE_ser]

theorem parseCount_ser {α : Type} (p : List Byte → Option (α × List Byte)) (ser : α → List Byte) :
    ∀ l : List α, (∀ a ∈ l, ∀ r, p (ser a ++ r) = some (a, r)) →
      ∀ rest : List Byte, parseCount p l.length ((l.map ser).flatten ++ rest) = some (l, rest)
  | [], _, rest => by simp [parseCount]
  | a :: l, hp, rest => by
      have ih := parseCount_ser p ser l (fun x hx => hp x (List.mem_cons_of_mem a hx)) rest
      simp only [List.map_cons, List.flatten_cons, List.length_cons, List.append_assoc, parseCount]
      rw [hp a (List.mem_cons_self a l)]
      simp [ih]

theorem parseNodeAddr_ser (na : NodeAddr) (h : na.endpoints.length < 18446744073709551616)
    (rest : List Byte) : parseNodeAddr (serNodeAddr na ++ rest) = some (na, rest) := by
  obtain ⟨nid, eps⟩ := na
  have h2 : eps.length < 18446744073709551616 := h
  simp only [serNodeAddr, List.append_assoc, parseNodeAddr]
  rw [readFixed_append]
  simp [parseU64LE_ser _ h2,
        parseCount_ser parseSockAddr serSockAddr eps (fun a _ r => parseSockAddr_ser a r)]

theorem parseTicket_ser (t : Ticket) (h1 : t.nodes.length < 18446744073709551616)
    (h2 : ∀ na ∈ t.nodes, na.endpoints.length < 18446744073709551616) (rest : List Byte) :
    parseTicket (serTicket t ++ rest) = some (t, rest) := by
  obtain ⟨topic, nodes⟩ := t
  have h3 : nodes.length < 18446744073709551616 := h1
  simp only [serTicket, List.append_assoc, parseTicket]
  rw [readFixed_append]
  simp [parseU64LE_ser _ h3,
        parseCount_ser parseNodeAddr serNodeAddr nodes
          (fun na hna r => parseNodeAddr_ser na (h2 na hna) r)]

/-! Stego lemmas. -/

theorem listStartsWith_append : ∀ (p l : List Char), listStartsWith p (p ++ l) = true
  | [], _ => rfl
  | x :: xs, l => by simp [listStartsWith, listStartsWith_append xs l]

theorem listStartsWith_exists : ∀ (p l : List Char), listStartsWith p l = true →
    ∃ rest, l = p ++ rest
  | [], l, _ => ⟨l, rfl⟩
  | x :: xs, [], h => by simp [listStartsWith] at h
  | x :: xs, y :: ys, h => by
      simp only [listStartsWith, Bool.and_eq_true, beq_iff_eq] at h
      obtain ⟨rest, hrest⟩ := listStartsWith_exists xs ys h.2
      exact ⟨rest, by simp [h.1, hrest]⟩

theorem findSubIdx_startsWith (pat : List Char) : ∀ (text : List Char) (s : Nat),
    findSubIdx pat text = some s → listStartsWith pat (text.drop s) = true
  | [], s, h => by
      have hER : findSubIdx pat [] =
          if listStartsWith pat [] = true then some 0 else none := rfl
      by_cases hc : listStartsWith pat ([] : List Char) = true
      · rw [hER, if_pos hc] at h
        cases h
        exact hc
      · rw [hER, if_neg hc] at h
        cases h
  | x :: xs, s, h => by
      have hER : findSubIdx pat (x :: xs) =
          if listStartsWith pat (x :: xs) = true then some 0
          else (findSubIdx pat xs).map (· + 1) := rfl
      by_cases hc : listStartsWith pat (x :: xs) = true
      · rw [hER, if_pos hc] at h
        cases h
        exact hc
      · rw [hER, if_neg hc] at h
        cases hm : findSubIdx pat xs with
        | none => rw [hm] at h; cases h
        | some s1 =>
            rw [hm] at h
            cases h
            exact findSubIdx_startsWith pat xs s1 hm

theorem findCharIdx_append_of_not_mem (c : Char) : ∀ (p l : List Char), c ∉ p →
    findCharIdx c (p ++ l) = (findCharIdx c l).map (· + p.length)
  | [], l, _ => by cases hf : findCharIdx c l <;> simp [hf]
  | x :: xs, l, h => by
      have hx : ¬ x = c := fun he => h (List.mem_cons.mpr (Or.inl he.symm))
      have ih := findCharIdx_append_of_not_mem c xs l (fun hm => h (List.mem_cons_of_mem x hm))
      cases hf : findCharIdx c l with
      | none => simp [findCharIdx, hx, ih, hf]
      | some v =>
          simp [findCharIdx, hx, ih, hf]
          omega

theorem findCharIdx_lt_length (c : Char) : ∀ (l : List Char) (e : Nat),
    findCharIdx c l = some e → e < l.length
  | [], e, h => by simp [findCharIdx] at h
  | x :: xs, e, h => by
      have hER : findCharIdx c (x :: xs) =
          if x = c then some 0 else (findCharIdx c xs).map (· + 1) := rfl
      by_cases hx : x = c
      · rw [hER, if_pos hx] at h
        cases h
        simp
      · rw [hER, if_neg hx] at h
        cases hm : findCharIdx c xs with
        | none => rw [hm] at h; cases h
        | some e1 =>
            rw [hm] at h
            cases h
            have := findCharIdx_lt_length c xs e1 hm
            simp
            omega

theorem findCharIdx_mem (c : Char) : ∀ (l : List Char) (e : Nat),
    findCharIdx c l = some e → c ∈ l
  | [], e, h => by simp [findCharIdx] at h
  | x :: xs, e, h => by
      have hER : findCharIdx c (x :: xs) =
          if x = c then some 0 else (findCharIdx c xs).map (· + 1) := rfl
      by_cases hx : x = c
      · exact List.mem_cons.mpr (Or.inl hx.symm)
      · rw [hER, if_neg hx] at h
        cases hm : findCharIdx c xs with
        | none => rw [hm] at h; cases h
        | some e1 =>
            exact List.mem_cons_of_mem x (findCharIdx_mem c xs e1 hm)

theorem findSubIdx_ghost (l : List Char) : findSubIdx ghostTag (ghostTag ++ l) = some 0 := by
  simp [ghostTag, findSubIdx, listStartsWith]

/-- Totality of reveal: no input makes the slice go out of range. -/
theorem reveal_isSome_aux (text : List Char) : (reveal text).isSome = true := by
  unfold reveal
  cases hf : findSubIdx ghostTag text with
  | none => simp
  | some s =>
    cases he : findCharIdx ']' (text.drop s) with
    | none => simp [he]
    | some e =>
      have he0 := he
      obtain ⟨rest, hrest⟩ :=
        listStartsWith_exists ghostTag (text.drop s) (findSubIdx_startsWith ghostTag text s hf)
      rw [hrest] at he
      rw [findCharIdx_append_of_not_mem ']' ghostTag rest (by decide)] at he
      cases hm : findCharIdx ']' rest with
      | none => rw [hm] at he; simp at he
      | some e1 =>
        rw [hm] at he
        simp only [Option.map_some', Option.some.injEq] at he
        have hlen : (text.drop s).length = 7 + rest.length := by
          rw [hrest]; simp [ghostTag]; omega
        have hdrop : (text.drop s).length = text.length - s := by simp
        have he1 := findCharIdx_lt_length ']' rest e1 hm
        have hcond : s + 7 ≤ s + e ∧ s + e ≤ text.length := by
          simp only [ghostTag, List.length_cons, List.length_nil] at he
          omega
        simp [he0, sliceChk, hcond]

/-- When no complete span exists, reveal falls through to the trimmed input. -/
theorem reveal_no_span_aux (text : List Char) (h : noSpan text) :
    reveal text = some (rustTrim text) := by
  unfold reveal
  cases hf : findSubIdx ghostTag text with
  | none => rfl
  | some s =>
    cases he : findCharIdx ']' (text.drop s) with
    | none => simp [he]
    | some e =>
      exfalso
      obtain ⟨rest, hrest⟩ :=
        listStartsWith_exists ghostTag (text.drop s) (findSubIdx_startsWith ghostTag text s hf)
      rw [hrest] at he
      rw [findCharIdx_append_of_not_mem ']' ghostTag rest (by decide)] at he
      cases hm : findCharIdx ']' rest with
      | none => rw [hm] at he; simp at he
      | some e1 =>
        have hmem : ']' ∈ rest := findCharIdx_mem ']' rest e1 hm
        have hd7 : (ghostTag ++ rest).drop 7 = rest := List.drop_left ghostTag rest
        have hdrop7 : text.drop (s + 7) = rest := by
          rw [← List.drop_drop 7 s text, hrest, hd7]
        have hlen : (text.drop s).length = 7 + rest.length := by
          rw [hrest]; simp [ghostTag]; omega
        have hs : s < text.length := by
          simp only [List.length_drop] at hlen
          omega
        exact h s hs ⟨by rw [hrest]; exact listStartsWith_append ghostTag rest,
                      by rw [hdrop7]; exact hmem⟩

/-! Session-state lemmas. -/

theorem countKey_insertPN (k : NodeId) (v : List Char) :
    ∀ m, countKey k (insertPN k v m) = if countKey k m = 0 then 1 else countKey k m
  | [] => by simp [insertPN, countKey]
  | (k1, v1) :: rest => by
      by_cases hk : k1 = k
      · subst hk
        simp [insertPN, countKey]
      · simp [insertPN, countKey, hk, countKey_insertPN k v rest]

theorem lookupPN_insert_self (k : NodeId) (v : List Char) :
    ∀ m, lookupPN k (insertPN k v m) = some v
  | [] => by simp [insertPN, lookupPN]
  | (k1, v1) :: rest => by
      by_cases hk : k1 = k
      · simp [insertPN, hk, lookupPN]
      · simp [insertPN, hk, lookupPN, lookupPN_insert_self k v rest]

theorem lookupPN_insert_ne (k q : NodeId) (v : List Char) (hne : ¬ k = q) :
    ∀ m, lookupPN q (insertPN k v m) = lookupPN q m
  | [] => by simp [insertPN, lookupPN, hne]
  | (k1, v1) :: rest => by
      by_cases hk : k1 = k
      · subst hk
        simp [insertPN, lookupPN, hne]
      · by_cases hq : k1 = q
        · subst hq
          simp [insertPN, hk, lookupPN]
        · simp [insertPN, hk, lookupPN, hq, lookupPN_insert_ne k q v hne rest]

theorem insertPN_idem (k : NodeId) (v : List Char) :
    ∀ m, insertPN k v (insertPN k v m) = insertPN k v m
  | [] => by simp [insertPN]
  | (k1, v1) :: rest => by
      by_cases hk : k1 = k
      · simp [insertPN, hk]
      · simp [insertPN, hk, insertPN_idem k v rest]

theorem applyPresences_lww (q : NodeId) :
    ∀ (msgs m : List (NodeId × List Char)),
      lookupPN q (applyPresences m msgs) =
        match lastFrom q msgs with
        | some nm => some nm
        | none => lookupPN q m
  | [], m => by simp [applyPresences, lastFrom]
  | (p, n) :: rest, m => by
      have ih := applyPresences_lww q rest (insertPN p n m)
      cases hl : lastFrom q rest with
      | some r =>
          rw [hl] at ih
          simp [applyPresences, lastFrom, hl, ih]
      | none =>
          rw [hl] at ih
          by_cases hp : p = q
          · subst hp
            simp [applyPresences, lastFrom, hl, ih, lookupPN_insert_self]
          · simp [applyPresences, lastFrom, hl, ih, hp, lookupPN_insert_ne p q n hp]

theorem processPresence_idem (st : AppState) (p : NodeId) (name now : List Char) :
    processInbound (processInbound st p (some (.aboutMe name)) now) p (some (.aboutMe name)) now =
      processInbound st p (some (.aboutMe name)) now := by
  simp [processInbound, insertPN_idem]

theorem processPresence_iterate (st : AppState) (p : NodeId) (name now : List Char) :
    ∀ k : Nat, (fun s => processInbound s p (some (.aboutMe name)) now)^[k + 1] st =
      processInbound st p (some (.aboutMe name)) now := by
  intro k
  induction k with
  | zero => rw [Function.iterate_one]
  | succ k ih =>
      rw [Function.iterate_succ_apply', ih]
      exact processPresence_idem st p name now

theorem step_status_running (st : AppState) (ev : LoopEvent) (now : List Char)
    (h : ev ≠ LoopEvent.key KeyCode.esc) : (step st ev now).2.1 = Status.running := by
  cases ev with
  | net f p => rfl
  | netNoise => rfl
  | tick => rfl
  | key code =>
      cases code with
      | enter => by_cases hi : st.input = [] <;> simp [step, hi]
      | char c => rfl
      | backspace => rfl
      | esc => exact absurd rfl h
      | other => rfl

theorem runLoop_running : ∀ (evs : List (LoopEvent × List Char)) (st : AppState),
    (∀ e ∈ evs, e.1 ≠ LoopEvent.key KeyCode.esc) → (runLoop st evs).2 = Status.running
  | [], st, _ => rfl
  | (ev, now) :: rest, st, h => by
      have h1 : ev ≠ LoopEvent.key KeyCode.esc := h (ev, now) (List.mem_cons_self _ _)
      have hs := step_status_running st ev now h1
      simp only [runLoop, hs]
      exact runLoop_running rest (step st ev now).1
        (fun e he => h e (List.mem_cons_of_mem _ he))

/-! Claim theorems. -/

/-- C1: Ticket round-trip — for every Ticket value (any fixed-size topic and any
node list, with the list lengths representable as usize), decoding the string
produced by encoding it (bincode then unpadded standard base64, as Ticket's
Display impl) via Ticket::from_str yields a ticket structurally equal to the
original on both topic and node list. -/
theorem ticket_roundtrip (t : Ticket)
    (h1 : t.nodes.length < 18446744073709551616)
    (h2 : ∀ na ∈ t.nodes, na.endpoints.length < 18446744073709551616) :
    ticketFromStr (ticketDisplay t) = some t := by
  unfold ticketFromStr ticketDisplay
  rw [rustTrim_of_no_ws _ (fun c hc => b64chars_not_ws c (mem_b64encode _ c hc))]
  rw [b64decode_encode]
  have hp := parseTicket_ser t h1 h2 []
  rw [List.append_nil] at hp
  simp [hp]

theorem ticket_roundtrip_witness : ticketFromStr (ticketDisplay wTicket) = some wTicket :=
  ticket_roundtrip wTicket (by decide) (by decide)

/-- C2: Envelope round-trip — for every string s containing no closing bracket
and every cover string (including the empty string), reveal (hide cover s)
returns s exactly. -/
theorem envelope_roundtrip (cover s : List Char) (h : ']' ∉ s) :
    reveal (hide cover s) = some s := by
  have h1 : findSubIdx ghostTag (hide cover s) = some 0 := by
    show findSubIdx ghostTag (ghostTag ++ s ++ [']']) = some 0
    rw [List.append_assoc]
    exact findSubIdx_ghost _
  have h2 : findCharIdx ']' ((hide cover s).drop 0) = some (s.length + 7) := by
    show findCharIdx ']' (ghostTag ++ s ++ [']']) = some (s.length + 7)
    rw [List.append_assoc]
    rw [findCharIdx_append_of_not_mem ']' ghostTag _ (by decide)]
    rw [findCharIdx_append_of_not_mem ']' s _ h]
    simp [findCharIdx, ghostTag]
  have h3 : sliceChk (hide cover s) (0 + 7) (0 + (s.length + 7)) = some s := by
    show sliceChk (ghostTag ++ s ++ [']']) (0 + 7) (0 + (s.length + 7)) = some s
    unfold sliceChk
    rw [if_pos]
    · rw [List.append_assoc]
      have hd : (ghostTag ++ (s ++ [']'])).drop (0 + 7) = s ++ [']'] :=
        List.drop_left ghostTag (s ++ [']'])
      rw [hd]
      have ht : 0 + (s.length + 7) - (0 + 7) = s.length := by omega
      rw [ht, List.take_left s [']']]
    · constructor
      · omega
      · simp only [List.length_append, List.length_cons, List.length_nil, ghostTag]
        omega
  unfold reveal
  simp only [h1, h2, h3]

theorem envelope_roundtrip_witness :
    reveal (hide ['H', 'i'] ['a', 'b', 'c']) = some ['a', 'b', 'c'] :=
  envelope_roundtrip ['H', 'i'] ['a', 'b', 'c'] (by decide)

/-- C3: reveal is total — for every input it returns a result (no panic, no
out-of-range slice, also when the opener is present with no closing bracket),
and whenever the input contains no complete envelope span the result is the
input trimmed of leading and trailing whitespace. -/
theorem reveal_total_and_fallback (text : List Char) :
    (reveal text).isSome = true ∧ (noSpan text → reveal text = some (rustTrim text)) :=
  ⟨reveal_isSome_aux text, fun h => reveal_no_span_aux text h⟩

theorem reveal_total_and_fallback_witness :
    (reveal wNoBracket).isSome = true ∧ reveal wNoBracket = some (rustTrim wNoBracket) :=
  ⟨(reveal_total_and_fallback wNoBracket).1,
   (reveal_total_and_fallback wNoBracket).2 (by decide)⟩

/-- C4: Ticket decoding rejects bad input with an error, never a panic and never
a partial result: whenever the trimmed input is not valid unpadded standard
base64, or its decoded bytes do not parse as the Ticket binary schema,
from_str yields the error case; in particular on the string "not a ticket". -/
theorem ticket_decode_rejects (s : List Char)
    (h : b64decode (rustTrim s) = none ∨
         ∃ bs, b64decode (rustTrim s) = some bs ∧ parseTicket bs = none) :
    ticketFromStr s = none := by
  unfold ticketFromStr
  rcases h with h | ⟨bs, hb, hp⟩
  · simp [h]
  · simp [hb, hp]

theorem ticket_decode_rejects_witness :
    ticketFromStr ['n', 'o', 't', ' ', 'a', ' ', 't', 'i', 'c', 'k', 'e', 't'] = none :=
  ticket_decode_rejects _ (Or.inl (by decide))

/-- C5: hide returns exactly the concatenation of the opener, the secret and
the closing bracket, for every cover and secret; the result is independent of
the cover (two calls with the same secret and different covers agree), and
hide is a total function. -/
theorem hide_envelope_exact (cover cover2 secret : List Char) :
    hide cover secret = "[Ghost:".toList ++ secret ++ "]".toList ∧
    hide cover secret = hide cover2 secret := by
  constructor
  · show ghostTag ++ secret ++ [']'] = "[Ghost:".toList ++ secret ++ "]".toList
    rw [show "[Ghost:".toList = ghostTag from by decide]
    rw [show "]".toList = [']'] from by decide]
  · rfl

/-- C6: Presence handling is idempotent and last-write-wins — processing
Presence from p leaves exactly one peer_names entry for p holding the
announced name; repeating the same Presence any number of times equals
processing it once; and over any sequence of Presence deliveries each peer's
entry is the name of that peer's most recent Presence. -/
theorem presence_idempotent_lww (st : AppState) (p : NodeId) (name now : List Char)
    (hcnt : countKey p st.peer_names ≤ 1) :
    countKey p (processInbound st p (some (.aboutMe name)) now).peer_names = 1 ∧
    lookupPN p (processInbound st p (some (.aboutMe name)) now).peer_names = some name ∧
    (∀ k : Nat, (fun s => processInbound s p (some (.aboutMe name)) now)^[k + 1] st =
        processInbound st p (some (.aboutMe name)) now) ∧
    (∀ (msgs : List (NodeId × List Char)) (q : NodeId) (nm : List Char),
        lastFrom q msgs = some nm →
          lookupPN q (applyPresences st.peer_names msgs) = some nm) := by
  refine ⟨?_, ?_, processPresence_iterate st p name now, ?_⟩
  · show countKey p (insertPN p name st.peer_names) = 1
    rw [countKey_insertPN]
    split <;> omega
  · exact lookupPN_insert_self p name st.peer_names
  · intro msgs q nm hlast
    rw [applyPresences_lww q msgs st.peer_names, hlast]

theorem presence_idempotent_lww_witness :
    countKey wNid (processInbound wState wNid (some (.aboutMe wName)) wNow).peer_names = 1 ∧
    lookupPN wNid (processInbound wState wNid (some (.aboutMe wName)) wNow).peer_names =
      some wName ∧
    (fun s => processInbound s wNid (some (.aboutMe wName)) wNow)^[3] wState =
      processInbound wState wNid (some (.aboutMe wName)) wNow ∧
    lookupPN wNid (applyPresences wState.peer_names [(wNid, wName)]) = some wName := by
  have hth := presence_idempotent_lww wState wNid wName wNow (by decide)
  exact ⟨hth.1, hth.2.1, hth.2.2.1 2, hth.2.2.2 [(wNid, wName)] wNid wName (by decide)⟩

/-- C7: Pressing enter with non-empty input, in one loop iteration before the
next render, broadcasts a Chat with the current input, appends one own-flagged
transcript entry carrying that text and the current timestamp, and clears the
input; pressing enter with empty input broadcasts and appends nothing. -/
theorem enter_broadcast_append_clear (st st2 : AppState) (now : List Char)
    (h : st.input ≠ []) (h2 : st2.input = []) :
    step st (.key .enter) now =
      ({ st with input := [],
                 messages := st.messages ++ [⟨st.my_name, st.input, now, true⟩] },
       .running, [Message.chat st.input]) ∧
    step st2 (.key .enter) now = (st2, .running, []) := by
  constructor
  · simp [step, h]
  · simp [step, h2]

theorem enter_broadcast_append_clear_witness :
    step wStateTyping (.key .enter) wNow =
      ({ wStateTyping with
          input := [],
          messages := wStateTyping.messages ++
            [⟨wStateTyping.my_name, wStateTyping.input, wNow, true⟩] },
       .running, [Message.chat wStateTyping.input]) ∧
    step wState (.key .enter) wNow = (wState, .running, []) :=
  enter_broadcast_append_clear wStateTyping wState wNow (by decide) (by decide)

/-- C8: Malformed inbound payloads are dropped silently and atomically: a
delivery whose payload does not deserialize leaves the whole session state
unchanged, broadcasts nothing, and keeps the loop running. -/
theorem malformed_payload_dropped (st : AppState) (from_id : NodeId) (now : List Char) :
    step st (.net from_id none) now = (st, Status.running, []) := rfl

/-- C9: The loop leaves Running only on a local escape key press: over any
sequence of network events (malformed included) and non-escape key events the
loop stays Running, and a single step terminates only when the event is the
escape key. -/
theorem terminate_only_on_esc (st : AppState) (evs : List (LoopEvent × List Char))
    (h : ∀ e ∈ evs, e.1 ≠ LoopEvent.key KeyCode.esc) :
    (runLoop st evs).2 = Status.running ∧
    (∀ (ev : LoopEvent) (now : List Char),
        (step st ev now).2.1 = Status.terminated → ev = LoopEvent.key KeyCode.esc) := by
  refine ⟨runLoop_running evs st h, ?_⟩
  intro ev now hterm
  by_cases he : ev = LoopEvent.key KeyCode.esc
  · exact he
  · rw [step_status_running st ev now he] at hterm
    cases hterm

theorem terminate_only_on_esc_witness : (runLoop wState wEvents).2 = Status.running :=
  (terminate_only_on_esc wState wEvents (by decide)).1

/-- C10: Frame effect of inbound handling — a well-formed Presence modifies
only peer_names (messages, input, my_name unchanged), and a well-formed Chat
modifies only messages, appending exactly one entry (peer_names, input,
my_name unchanged; a Chat from an unknown sender creates no peer_names entry
and renders under the placeholder name). -/
theorem inbound_frame_effects (st : AppState) (p : NodeId) (name text now : List Char) :
    (processInbound st p (some (.aboutMe name)) now).messages = st.messages ∧
    (processInbound st p (some (.aboutMe name)) now).input = st.input ∧
    (processInbound st p (some (.aboutMe name)) now).my_name = st.my_name ∧
    (processInbound st p (some (.aboutMe name)) now).peer_names =
      insertPN p name st.peer_names ∧
    (processInbound st p (some (.chat text)) now).peer_names = st.peer_names ∧
    (processInbound st p (some (.chat text)) now).input = st.input ∧
    (processInbound st p (some (.chat text)) now).my_name = st.my_name ∧
    (processInbound st p (some (.chat text)) now).messages =
      st.messages ++ [⟨(lookupPN p st.peer_names).getD unknownName, text, now, false⟩] :=
  ⟨rfl, rfl, rfl, rfl, rfl, rfl, rfl, rfl⟩

end Ghost
